import Mathlib

/-!
Verification of the UDPRIP router node in `src/router.py`.

The mutable Python objects are embedded functionally:
* a Python `dict` becomes a partial function out of its key type;
* a Python `set` of addresses becomes a `Finset Addr`;
* `random.choice` over a hop set becomes an explicit `pick` parameter;
* `time.time()` becomes an explicit `now : Nat` argument;
* code that sends datagrams returns the list of `(message, target)` pairs it
  would transmit instead of performing I/O;
* an uncaught Python exception becomes `Except.error`.
-/

abbrev Addr := String

/-- Entry of `RoutingTable._routes`: the pair `(cost, hop_set)`. -/
abbrev Route := Int × Finset Addr

/-- State of `RoutingTable._routes`, a dict from destination to route. -/
abbrev RT := Addr → Option Route

/-- Constructor `RoutingTable.__init__`: the table starts as `{my_ip: (0, {my_ip})}`. -/
def initRT (my_ip : Addr) : RT := fun d => if d = my_ip then some (0, {my_ip}) else none

/-- Dict assignment `self._routes[dst] = r` (also covers the in-place
`cur[1].add(nbr)`, which rebinds the entry at `dst` to the enlarged hop set). -/
def rtSet (rt : RT) (d : Addr) (r : Route) : RT := fun x => if x = d then some r else rt x

/-- Lookup `vector[dst]` in an update vector.  A vector is a decoded JSON
object (a Python dict), embedded as a key-value list; dict keys are unique,
which theorems record as a `Nodup` hypothesis where it matters. -/
def lookupV : List (Addr × Int) → Addr → Option Int
  | [], _ => none
  | (k, v) :: rest, d => if k = d then some v else lookupV rest d

/-- Body of the first loop of `RoutingTable.learn_neighbor_vector` for one
vector item `p = (dst, d_via_nbr)`:
`total = w_nbr + d`; install on miss or strict improvement, join on tie. -/
def learnStep (nbr : Addr) (w_nbr : Int) (rt : RT) (p : Addr × Int) : RT :=
  let total := w_nbr + p.2
  match rt p.1 with
  | none => rtSet rt p.1 (total, {nbr})
  | some cur =>
    if total < cur.1 then rtSet rt p.1 (total, {nbr})
    else if total = cur.1 then rtSet rt p.1 (cur.1, insert nbr cur.2)
    else rt

/-- First loop of `learn_neighbor_vector`: fold `learnStep` over the vector
items, in order. -/
def learnRelax (nbr : Addr) (w_nbr : Int) (vector : List (Addr × Int)) (rt : RT) : RT :=
  vector.foldl (learnStep nbr w_nbr) rt

/-- Body of the second loop of `learn_neighbor_vector` for the entry at one
destination: if `nbr in hops and dst in vector` and the recomputed cost
exceeds the stored one, discard `nbr` and drop the entry if that empties it
(`dOpt` is `vector[dst]` when `dst in vector`, else `none`). -/
def withdrawAt (nbr : Addr) (w_nbr : Int) (cur : Option Route) (dOpt : Option Int) :
    Option Route :=
  match cur with
  | none => none
  | some (cost, hops) =>
    if nbr ∈ hops then
      match dOpt with
      | none => some (cost, hops)
      | some d =>
        if cost < w_nbr + d then
          (if hops.erase nbr = ∅ then none else some (cost, hops.erase nbr))
        else some (cost, hops)
    else some (cost, hops)

/-- Pointwise value, at the key it touches, of one relaxation step of
`learn_neighbor_vector` (`dOpt` is `vector[dst]` when present). -/
def relaxAt (nbr : Addr) (w_nbr : Int) (cur : Option Route) (dOpt : Option Int) :
    Option Route :=
  match dOpt with
  | none => cur
  | some d =>
    match cur with
    | none => some (w_nbr + d, {nbr})
    | some c =>
      if w_nbr + d < c.1 then some (w_nbr + d, {nbr})
      else if w_nbr + d = c.1 then some (c.1, insert nbr c.2)
      else some c

/-- Second loop of `learn_neighbor_vector`.  The source iterates over a
snapshot `list(self._routes.items())` and mutates or pops each entry on its
own; distinct dict keys never share a hop-set object, so the loop acts on
every destination independently and is embedded pointwise. -/
def learnWithdraw (nbr : Addr) (w_nbr : Int) (vector : List (Addr × Int)) (rt : RT) : RT :=
  fun dst => withdrawAt nbr w_nbr (rt dst) (lookupV vector dst)

/-- Method `RoutingTable.learn_neighbor_vector(nbr, w_nbr, vector)`: the
relaxation loop followed by the withdrawal loop. -/
def learn_neighbor_vector (nbr : Addr) (w_nbr : Int) (vector : List (Addr × Int))
    (rt : RT) : RT :=
  learnWithdraw nbr w_nbr vector (learnRelax nbr w_nbr vector rt)

/-- Method `RoutingTable.purge_hop(broken_nh)`: drop `broken_nh` from every
hop set, deleting destinations whose hop set empties.  As with the withdrawal
loop, the per-entry actions are independent, so it is embedded pointwise. -/
def purge_hop (broken_nh : Addr) (rt : RT) : RT := fun dst =>
  match rt dst with
  | none => none
  | some (cost, hops) =>
    if broken_nh ∈ hops then
      (if hops.erase broken_nh = ∅ then none else some (cost, hops.erase broken_nh))
    else some (cost, hops)

/-- Method `RoutingTable.add_direct(neighbor_ip, weight)`: unconditional
overwrite with `(weight, {neighbor_ip})`. -/
def add_direct (neighbor_ip : Addr) (weight : Int) (rt : RT) : RT :=
  rtSet rt neighbor_ip (weight, {neighbor_ip})

/-- Method `RoutingTable.export(to_neighbor)`: the returned dict holds
`dst ↦ cost` exactly for entries whose hop set avoids `to_neighbor`. -/
def export' (rt : RT) (to_neighbor : Addr) : Addr → Option Int := fun d =>
  match rt d with
  | none => none
  | some (cost, hops) => if to_neighbor ∈ hops then none else some cost

/-- Method `RoutingTable.next_hop(dst)`: `random.choice` over the stored hop
set is modeled by the draw function `pick`. -/
def next_hop (pick : Finset Addr → Addr) (rt : RT) (dst : Addr) : Option Addr :=
  match rt dst with
  | none => none
  | some e => some (pick e.2)

/-- Value of `LinkTable._nbrs`: weight and last-seen instant. -/
structure Neighbor where
  weight : Int
  last_seen : Nat
deriving DecidableEq

/-- State of `LinkTable._nbrs`, a dict from neighbor address to record. -/
abbrev Links := Addr → Option Neighbor

/-- Method `LinkTable.add(ip, weight)`. -/
def LinkTable.add (lt : Links) (ip : Addr) (w : Int) (now : Nat) : Links :=
  fun x => if x = ip then some ⟨w, now⟩ else lt x

/-- Method `LinkTable.remove(ip)`. -/
def LinkTable.remove (lt : Links) (ip : Addr) : Links :=
  fun x => if x = ip then none else lt x

/-- Method `LinkTable.weight(ip)`. -/
def LinkTable.weight (lt : Links) (ip : Addr) : Option Int :=
  match lt ip with
  | some n => some n.weight
  | none => none

/-- Method `LinkTable.touch(ip)`: refresh `last_seen` when the neighbor is
known, silent no-op otherwise. -/
def LinkTable.touch (lt : Links) (ip : Addr) (now : Nat) : Links :=
  fun x =>
    if x = ip then
      match lt ip with
      | some n => some ⟨n.weight, now⟩
      | none => none
    else lt x

/-- Shared mutable state of `Router`: its link table and routing table. -/
structure NodeState where
  links : Links
  rt : RT

/-- Method `Router._handle_update(msg, src_ip)`: touch the sender, then learn
its vector only when the weight lookup succeeds. -/
def handleUpdate (now : Nat) (st : NodeState) (src_ip : Addr)
    (distances : List (Addr × Int)) : NodeState :=
  let links := LinkTable.touch st.links src_ip now
  match LinkTable.weight links src_ip with
  | some w => ⟨links, learn_neighbor_vector src_ip w distances st.rt⟩
  | none => ⟨links, st.rt⟩

/-- Wire messages (`mk_data`, `mk_update`, `mk_trace`, `mk_control`). -/
inductive Msg
  | data (source destination : Addr) (payload : String)
  | update (source destination : Addr) (distances : List (Addr × Int))
  | trace (source destination : Addr) (routers : List Addr)
  | control (source destination : Addr) (reason : String) (original : Msg)
deriving DecidableEq

/-- Field `msg["source"]`. -/
def Msg.source : Msg → Addr
  | .data s _ _ => s
  | .update s _ _ => s
  | .trace s _ _ => s
  | .control s _ _ _ => s

/-- Field `msg["destination"]`. -/
def Msg.destination : Msg → Addr
  | .data _ d _ => d
  | .update _ d _ => d
  | .trace _ d _ => d
  | .control _ d _ _ => d

/-- Method `Router._forward_or_notify(msg)`, returning the datagrams it
transmits as `(message, target_ip)` pairs. -/
def forwardOrNotify (pick : Finset Addr → Addr) (my_ip : Addr) (rt : RT) (m : Msg) :
    List (Msg × Addr) :=
  match next_hop pick rt m.destination with
  | some nh => [(m, nh)]
  | none =>
    let ctrl := Msg.control my_ip m.source "unreachable" m
    match next_hop pick rt ctrl.destination with
    | some back => [(ctrl, back)]
    | none => []

/-- Method `Router._handle_trace(msg)` on a trace with fields
`(src, dst, routers)`; `dumps` stands for `json.dumps`. -/
def handleTrace (dumps : Msg → String) (pick : Finset Addr → Addr) (my_ip : Addr)
    (rt : RT) (src dst : Addr) (routers : List Addr) : List (Msg × Addr) :=
  let m := Msg.trace src dst (routers ++ [my_ip])
  if dst = my_ip then [(Msg.data my_ip src (dumps m), src)]
  else forwardOrNotify pick my_ip rt m

/-- Helper for `tokenize`: scan the characters, accumulating the current token
reversed, emitting a token at each whitespace run boundary. -/
def tokensAux : List Char → List Char → List String
  | [], [] => []
  | [], acc => [String.mk acc.reverse]
  | c :: cs, acc =>
    if c.isWhitespace then
      match acc with
      | [] => tokensAux cs []
      | _ => String.mk acc.reverse :: tokensAux cs []
    else tokensAux cs (c :: acc)

/-- Python `cmd.split()`: split on whitespace runs, discarding empty pieces. -/
def tokenize (s : String) : List String := tokensAux s.data []

/-- Helper for `pyInt?`: read a nonempty all-digit string as a `Nat`. -/
def parseNatDigits : List Char → Nat → Option Nat
  | [], n => some n
  | c :: cs, n => if c.isDigit then parseNatDigits cs (10 * n + (c.toNat - 48)) else none

/-- Python `int(s)` on a whitespace-free token: an optional sign followed by at
least one digit, `none` standing for an uncaught `ValueError`. -/
def pyInt? (s : String) : Option Int :=
  match s.data with
  | [] => none
  | '-' :: cs => if cs = [] then none else (parseNatDigits cs 0).map (fun n => -(n : Int))
  | '+' :: cs => if cs = [] then none else (parseNatDigits cs 0).map (fun n => (n : Int))
  | cs => (parseNatDigits cs 0).map (fun n => (n : Int))

/-- Exceptions that can escape `Router._exec_cmd` uncaught. -/
inductive PyError
  | valueError
  | indexError
deriving DecidableEq

/-- Line-oriented output of `Router._exec_cmd`: ordinary printed lines, plus
the `show` command's dump of `self.rt._routes` (whose textual rendering is
outside the spec's scope). -/
inductive OutLine
  | line (s : String)
  | routesDump (rt : RT)

/-- Usage hint printed by the wildcard arm of `Router._exec_cmd`. -/
def usageHint : String := "Commands: add <ip> <w>, del <ip>, trace <ip>, quit"

/-- Result of one `Router._exec_cmd` call: new tables, printed lines,
transmitted datagrams, and whether `shutdown` was initiated. -/
structure ExecResult where
  st : NodeState
  out : List OutLine
  sent : List (Msg × Addr)
  quit : Bool

/-- Dispatch of `Router._exec_cmd` over the token list `cmd.split()`,
mirroring the `match parts[0]` arms with their guards, in source order. -/
def execParts (pick : Finset Addr → Addr) (my_ip : Addr) (now : Nat)
    (st : NodeState) : List String → Except PyError ExecResult
  | [] => .error .indexError
  | p0 :: rest =>
    if p0 = "add" ∧ rest.length = 2 then
      let ip := rest.getD 0 ""
      match pyInt? (rest.getD 1 "") with
      | none => .error .valueError
      | some w =>
        .ok ⟨⟨LinkTable.add st.links ip w now, add_direct ip w st.rt⟩,
             [.line ("+ link " ++ ip ++ "/" ++ toString w)], [], false⟩
    else if p0 = "del" ∧ rest.length = 1 then
      let ip := rest.getD 0 ""
      .ok ⟨⟨LinkTable.remove st.links ip, purge_hop ip st.rt⟩,
           [.line ("- link " ++ ip)], [], false⟩
    else if p0 = "trace" ∧ rest.length = 1 then
      let dst := rest.getD 0 ""
      .ok ⟨st, [], forwardOrNotify pick my_ip st.rt (Msg.trace my_ip dst [my_ip]), false⟩
    else if p0 = "quit" then
      .ok ⟨st, [.line "x router closed"], [], true⟩
    else if p0 = "show" then
      .ok ⟨st, [.routesDump st.rt], [], false⟩
    else
      .ok ⟨st, [.line usageHint], [], false⟩

/-- Method `Router._exec_cmd(cmd)`: empty input returns at once, otherwise the
command is tokenized and dispatched. -/
def execCmd (pick : Finset Addr → Addr) (my_ip : Addr) (now : Nat) (st : NodeState)
    (cmd : String) : Except PyError ExecResult :=
  if cmd = "" then .ok ⟨st, [], [], false⟩
  else execParts pick my_ip now st (tokenize cmd)

/-- Operations a run of the program can perform on the routing table:
`learn` from `_handle_update`, `purge` from operator `del` or link expiry,
`addDirect` from operator `add`. -/
inductive Op
  | learn (nbr : Addr) (w : Int) (vec : List (Addr × Int))
  | purge (hop : Addr)
  | addDirect (ip : Addr) (w : Int)
deriving DecidableEq

/-- Effect of one operation on the routing table. -/
def applyOp (op : Op) (rt : RT) : RT :=
  match op with
  | .learn nbr w vec => learn_neighbor_vector nbr w vec rt
  | .purge hop => purge_hop hop rt
  | .addDirect ip w => add_direct ip w rt

/-- Effect of a sequence of operations, applied in order. -/
def applyOps (ops : List Op) (rt : RT) : RT := ops.foldl (fun acc op => applyOp op acc) rt

/-- Well-formed operation arguments for the cost invariant: weights are
positive and advertised distances non-negative (the wire data model of §3/§6),
and no operation names the node's own address. -/
def OpWf (my_ip : Addr) : Op → Prop
  | .learn nbr w vec => nbr ≠ my_ip ∧ 1 ≤ w ∧ ∀ p ∈ vec, 0 ≤ p.2
  | .purge hop => hop ≠ my_ip
  | .addDirect ip w => ip ≠ my_ip ∧ 1 ≤ w

instance OpWf.instDecidable (my_ip : Addr) (op : Op) : Decidable (OpWf my_ip op) :=
  match op with
  | .learn nbr w vec =>
    inferInstanceAs (Decidable (nbr ≠ my_ip ∧ 1 ≤ w ∧ ∀ p ∈ vec, 0 ≤ p.2))
  | .purge hop => inferInstanceAs (Decidable (hop ≠ my_ip))
  | .addDirect ip w => inferInstanceAs (Decidable (ip ≠ my_ip ∧ 1 ≤ w))

/-- Invariant of §3: every stored route has a non-empty hop set. -/
def hopsOk (rt : RT) : Prop := ∀ dst c h, rt dst = some (c, h) → h ≠ ∅

/-- Cost invariant of §3, strengthened for induction: every stored cost is
non-negative and zero exactly at the node's own address, and the self route
is pinned at `(0, {my_ip})`. -/
def costOk (my_ip : Addr) (rt : RT) : Prop :=
  (∀ dst c h, rt dst = some (c, h) → 0 ≤ c ∧ (c = 0 ↔ dst = my_ip)) ∧
  rt my_ip = some (0, {my_ip})

/-- Modelled from the spec wording of §4.2 (and claim C1), as one case split
per destination: with `total = w_nbr + d` for `(dst, d)` in the vector,
install on miss, replace on strict improvement, join the hop set on a tie;
afterwards, a route whose hop set holds `nbr` with `dst` in the vector and
recomputed cost strictly above the stored one loses `nbr`, the destination
disappearing when its hop set empties. -/
def learnSpec (nbr : Addr) (w_nbr : Int) (vector : List (Addr × Int)) (rt : RT) : RT :=
  fun dst =>
    let afterRelax : Option Route :=
      match lookupV vector dst, rt dst with
      | none, cur => cur
      | some d, none => some (w_nbr + d, {nbr})
      | some d, some (c, h) =>
        if w_nbr + d < c then some (w_nbr + d, {nbr})
        else if w_nbr + d = c then some (c, insert nbr h)
        else some (c, h)
    match afterRelax, lookupV vector dst with
    | some (c, h), some d =>
      if nbr ∈ h ∧ c < w_nbr + d then
        (if h.erase nbr = ∅ then none else some (c, h.erase nbr))
      else some (c, h)
    | r, _ => r

/-- Sample routing table for concrete witnesses: node `S` with a route to `D`
of cost `5` via the single hop `N`. -/
def sampleRT : RT := rtSet (initRT "S") "D" (5, {"N"})

/-- Sample routing table with a two-hop ECMP route to `D`. -/
def sampleRT2 : RT := rtSet (initRT "S") "D" (5, insert "M" {"N"})

/-- Constant draw function standing in for `random.choice` in witnesses. -/
def pickConst : Finset Addr → Addr := fun _ => "N"

/-- Sample router state with no links, used by concrete witnesses. -/
def emptyLinksState : NodeState := ⟨fun _ => none, initRT "S"⟩

theorem rtSet_at (rt : RT) (d : Addr) (r : Route) : rtSet rt d r d = some r := by
  simp [rtSet]

theorem rtSet_at_other (rt : RT) (d x : Addr) (r : Route) (h : x ≠ d) :
    rtSet rt d r x = rt x := by
  simp [rtSet, h]

/-- C4: for every routing-table state and neighbor `n`, `export` yields
`dst ↦ cost` exactly for the routes whose hop set avoids `n`, and yields
nothing at any destination whose hop set holds `n` (split horizon). -/
theorem export_split_horizon (rt : RT) (n dst : Addr) :
    (∀ c, export' rt n dst = some c ↔ ∃ h, rt dst = some (c, h) ∧ n ∉ h) ∧
    (∀ c h, rt dst = some (c, h) → n ∈ h → export' rt n dst = none) := by
  constructor
  · intro c
    constructor
    · intro hc
      unfold export' at hc
      cases hr : rt dst with
      | none => rw [hr] at hc; exact absurd hc (by simp)
      | some e =>
        obtain ⟨cost, hops⟩ := e
        rw [hr] at hc
        by_cases hn : n ∈ hops
        · simp [hn] at hc
        · simp [hn] at hc
          exact ⟨hops, by rw [hc], hn⟩
    · rintro ⟨h, hr, hn⟩
      unfold export'
      rw [hr]
      simp [hn]
  · intro c h hr hn
    unfold export'
    rw [hr]
    simp [hn]

theorem export_split_horizon_witness : export' sampleRT "N" "D" = none :=
  (export_split_horizon sampleRT "N" "D").2 5 {"N"} (by decide) (by decide)

/-- C6: for a message not addressed to this node, `_forward_or_notify`
transmits it to a drawn next hop when the destination is routed; otherwise it
builds the single control message `(self, m.source, "unreachable", m)` and
transmits it only when the original source is routed, sending nothing at
all (and touching no state, the function being read-only) when it is not. -/
theorem forwardOrNotify_cases (pick : Finset Addr → Addr) (my_ip : Addr) (rt : RT)
    (m : Msg) (_hm : m.destination ≠ my_ip) :
    (∀ c h, rt m.destination = some (c, h) →
      forwardOrNotify pick my_ip rt m = [(m, pick h)]) ∧
    (rt m.destination = none →
      (∀ c h, rt m.source = some (c, h) →
        forwardOrNotify pick my_ip rt m
          = [(Msg.control my_ip m.source "unreachable" m, pick h)]) ∧
      (rt m.source = none → forwardOrNotify pick my_ip rt m = [])) := by
  refine ⟨fun c h hdst => ?_, fun hdst => ⟨fun c h hsrc => ?_, fun hsrc => ?_⟩⟩
  · have h1 : next_hop pick rt m.destination = some (pick h) := by
      simp [next_hop, hdst]
    simp only [forwardOrNotify, h1]
  · have h1 : next_hop pick rt m.destination = none := by simp [next_hop, hdst]
    have h2 : next_hop pick rt m.source = some (pick h) := by simp [next_hop, hsrc]
    have hc : (Msg.control my_ip m.source "unreachable" m).destination = m.source := rfl
    simp only [forwardOrNotify, h1, hc, h2]
  · have h1 : next_hop pick rt m.destination = none := by simp [next_hop, hdst]
    have h2 : next_hop pick rt m.source = none := by simp [next_hop, hsrc]
    have hc : (Msg.control my_ip m.source "unreachable" m).destination = m.source := rfl
    simp only [forwardOrNotify, h1, hc, h2]

theorem forwardOrNotify_cases_witness :
    forwardOrNotify pickConst "S" sampleRT (Msg.data "A" "D" "hi")
      = [(Msg.data "A" "D" "hi", pickConst {"N"})] :=
  (forwardOrNotify_cases pickConst "S" sampleRT (Msg.data "A" "D" "hi")
    (by decide)).1 5 {"N"} (by decide)

/-- C7: an update datagram from a source absent from the link table mutates
nothing: `touch` is a no-op, the weight lookup misses, and the whole of
`_handle_update` returns the state it was given. -/
theorem handleUpdate_nonneighbor_noop (now : Nat) (st : NodeState) (src_ip : Addr)
    (distances : List (Addr × Int)) (h : st.links src_ip = none) :
    LinkTable.touch st.links src_ip now = st.links ∧
    LinkTable.weight (LinkTable.touch st.links src_ip now) src_ip = none ∧
    handleUpdate now st src_ip distances = st := by
  have htouch : LinkTable.touch st.links src_ip now = st.links := by
    funext x
    unfold LinkTable.touch
    by_cases hx : x = src_ip
    · subst hx; rw [h]; simp
    · simp [hx]
  have hw : LinkTable.weight st.links src_ip = none := by
    unfold LinkTable.weight; rw [h]
  refine ⟨htouch, by rw [htouch]; exact hw, ?_⟩
  simp only [handleUpdate, htouch, hw]

theorem handleUpdate_nonneighbor_noop_witness :
    LinkTable.touch emptyLinksState.links "X" 0 = emptyLinksState.links ∧
    LinkTable.weight (LinkTable.touch emptyLinksState.links "X" 0) "X" = none ∧
    handleUpdate 0 emptyLinksState "X" [("D", 1)] = emptyLinksState :=
  handleUpdate_nonneighbor_noop 0 emptyLinksState "X" [("D", 1)] rfl

/-- C8: `_handle_trace` first appends this node to the trace's router list;
a trace that has reached its destination is answered with a data message to
the trace's source whose payload is the serialized augmented trace, sent to
that source, while any other trace is handed, augmented, to the forwarder. -/
theorem handleTrace_cases (dumps : Msg → String) (pick : Finset Addr → Addr)
    (my_ip : Addr) (rt : RT) (src dst : Addr) (routers : List Addr) :
    (dst = my_ip →
      handleTrace dumps pick my_ip rt src dst routers
        = [(Msg.data my_ip src (dumps (Msg.trace src dst (routers ++ [my_ip]))), src)]) ∧
    (dst ≠ my_ip →
      handleTrace dumps pick my_ip rt src dst routers
        = forwardOrNotify pick my_ip rt (Msg.trace src dst (routers ++ [my_ip]))) := by
  constructor <;> intro h <;> simp [handleTrace, h]

theorem handleTrace_cases_witness :
    handleTrace (fun _ => "") pickConst "S" sampleRT "A" "S" ["A"]
      = [(Msg.data "S" "A" ((fun _ => "") (Msg.trace "A" "S" (["A"] ++ ["S"]))), "A")] :=
  (handleTrace_cases (fun _ => "") pickConst "S" sampleRT "A" "S" ["A"]).1 rfl

theorem lookupV_mem (vec : List (Addr × Int)) (dst : Addr) (d : Int)
    (h : lookupV vec dst = some d) : (dst, d) ∈ vec := by
  induction vec with
  | nil => simp [lookupV] at h
  | cons p l ih =>
    obtain ⟨k, v⟩ := p
    by_cases hk : k = dst
    · subst hk
      simp [lookupV] at h
      subst h
      exact List.mem_cons_self _ _
    · simp [lookupV, hk] at h
      exact List.mem_cons_of_mem _ (ih h)

theorem learnStep_at_other (nbr : Addr) (w : Int) (rt : RT) (p : Addr × Int)
    (dst : Addr) (h : dst ≠ p.1) : learnStep nbr w rt p dst = rt dst := by
  unfold learnStep
  cases hp : rt p.1 with
  | none => simp [rtSet, h]
  | some cur =>
    by_cases h1 : w + p.2 < cur.1
    · simp [h1, rtSet, h]
    · by_cases h2 : w + p.2 = cur.1 <;> simp [h1, h2, rtSet, h]

theorem learnStep_at_key (nbr : Addr) (w : Int) (rt : RT) (p : Addr × Int) :
    learnStep nbr w rt p p.1 = relaxAt nbr w (rt p.1) (some p.2) := by
  unfold learnStep relaxAt
  cases hp : rt p.1 with
  | none => simp [rtSet]
  | some cur =>
    by_cases h1 : w + p.2 < cur.1
    · simp [h1, rtSet]
    · by_cases h2 : w + p.2 = cur.1 <;> simp [h1, h2, rtSet, hp]

theorem learnRelax_at_of_not_mem (nbr : Addr) (w : Int) (vec : List (Addr × Int))
    (rt : RT) (dst : Addr) (h : dst ∉ vec.map Prod.fst) :
    learnRelax nbr w vec rt dst = rt dst := by
  induction vec generalizing rt with
  | nil => rfl
  | cons p l ih =>
    simp only [List.map_cons, List.mem_cons, not_or] at h
    calc learnRelax nbr w (p :: l) rt dst
        = learnRelax nbr w l (learnStep nbr w rt p) dst := rfl
      _ = (learnStep nbr w rt p) dst := ih (learnStep nbr w rt p) h.2
      _ = rt dst := learnStep_at_other nbr w rt p dst h.1

theorem learnRelax_at (nbr : Addr) (w : Int) (vec : List (Addr × Int)) (rt : RT)
    (dst : Addr) (hnd : (vec.map Prod.fst).Nodup) :
    learnRelax nbr w vec rt dst = relaxAt nbr w (rt dst) (lookupV vec dst) := by
  induction vec generalizing rt with
  | nil => rfl
  | cons p l ih =>
    obtain ⟨k, d⟩ := p
    simp only [List.map_cons, List.nodup_cons] at hnd
    by_cases hdk : k = dst
    · subst hdk
      have h1 : lookupV ((k, d) :: l) k = some d := by simp [lookupV]
      have h2 : learnRelax nbr w ((k, d) :: l) rt k
          = learnRelax nbr w l (learnStep nbr w rt (k, d)) k := rfl
      rw [h1, h2, learnRelax_at_of_not_mem nbr w l _ k hnd.1]
      exact learnStep_at_key nbr w rt (k, d)
    · have h1 : lookupV ((k, d) :: l) dst = lookupV l dst := by simp [lookupV, hdk]
      have h2 : learnRelax nbr w ((k, d) :: l) rt dst
          = learnRelax nbr w l (learnStep nbr w rt (k, d)) dst := rfl
      rw [h1, h2, ih _ hnd.2,
        learnStep_at_other nbr w rt (k, d) dst (fun hh => hdk hh.symm)]

theorem learn_at (nbr : Addr) (w : Int) (vec : List (Addr × Int)) (rt : RT)
    (dst : Addr) (hnd : (vec.map Prod.fst).Nodup) :
    learn_neighbor_vector nbr w vec rt dst
      = withdrawAt nbr w (relaxAt nbr w (rt dst) (lookupV vec dst)) (lookupV vec dst) := by
  unfold learn_neighbor_vector learnWithdraw
  rw [learnRelax_at nbr w vec rt dst hnd]

/-- C1: under the dict discipline (distinct vector keys), the source's
`learn_neighbor_vector` computes exactly the two-phase update that §4.2
describes, here transcribed as `learnSpec`. -/
theorem learn_matches_spec (nbr : Addr) (w : Int) (vec : List (Addr × Int)) (rt : RT)
    (hnd : (vec.map Prod.fst).Nodup) :
    learn_neighbor_vector nbr w vec rt = learnSpec nbr w vec rt := by
  funext dst
  rw [learn_at nbr w vec rt dst hnd]
  unfold learnSpec withdrawAt relaxAt
  cases hL : lookupV vec dst with
  | none =>
    cases hr : rt dst with
    | none => rfl
    | some e =>
      obtain ⟨c, h⟩ := e
      by_cases hn : nbr ∈ h <;> simp [hn]
  | some d =>
    cases hr : rt dst with
    | none =>
      simp only []
      by_cases hlt : w + d < w + d
      · exact absurd hlt (lt_irrefl _)
      · simp [Finset.mem_singleton]
    | some e =>
      obtain ⟨c, h⟩ := e
      by_cases h1 : w + d < c
      · simp [h1, lt_irrefl]
      · by_cases h2 : w + d = c
        · have : ¬ c < w + d := by omega
          simp [h1, h2, this, Finset.mem_insert_self]
        · have hcl : c < w + d := by omega
          by_cases hn : nbr ∈ h
          · by_cases hem : h.erase nbr = ∅ <;> simp [h1, h2, hn, hcl, hem]
          · simp [h1, h2, hn]

theorem learn_matches_spec_witness :
    learn_neighbor_vector "N" 3 [("D", 9)] sampleRT = learnSpec "N" 3 [("D", 9)] sampleRT :=
  learn_matches_spec "N" 3 [("D", 9)] sampleRT (by decide)

theorem learnRelax_cost_mono (nbr : Addr) (w : Int) (vec : List (Addr × Int)) :
    ∀ (rt : RT) (dst : Addr) (c : Int) (h : Finset Addr), rt dst = some (c, h) →
      ∃ c' h', learnRelax nbr w vec rt dst = some (c', h') ∧ c' ≤ c := by
  induction vec with
  | nil => exact fun rt dst c h hr => ⟨c, h, hr, le_refl c⟩
  | cons p l ih =>
    intro rt dst c h hr
    have hstep : ∃ c₀ h₀, learnStep nbr w rt p dst = some (c₀, h₀) ∧ c₀ ≤ c := by
      by_cases hd : dst = p.1
      · subst hd
        rw [learnStep_at_key nbr w rt p]
        unfold relaxAt
        rw [hr]
        by_cases h1 : w + p.2 < c
        · exact ⟨w + p.2, {nbr}, by simp [h1], le_of_lt h1⟩
        · by_cases h2 : w + p.2 = c
          · exact ⟨c, insert nbr h, by simp [h1, h2], le_refl c⟩
          · exact ⟨c, h, by simp [h1, h2], le_refl c⟩
      · rw [learnStep_at_other nbr w rt p dst hd]
        exact ⟨c, h, hr, le_refl c⟩
    obtain ⟨c₀, h₀, he, hle⟩ := hstep
    obtain ⟨c', h', he', hle'⟩ := ih (learnStep nbr w rt p) dst c₀ h₀ he
    exact ⟨c', h', he', le_trans hle' hle⟩

theorem withdrawAt_cost (nbr : Addr) (w : Int) (c₀ c' : Int) (h₀ h' : Finset Addr)
    (dOpt : Option Int)
    (h : withdrawAt nbr w (some (c₀, h₀)) dOpt = some (c', h')) : c' = c₀ := by
  unfold withdrawAt at h
  by_cases hn : nbr ∈ h₀
  · cases dOpt with
    | none =>
      simp [hn] at h
      exact h.1.symm
    | some d =>
      by_cases hlt : c₀ < w + d
      · by_cases hem : h₀.erase nbr = ∅
        · simp [hn, hlt, hem] at h
        · simp [hn, hlt, hem] at h
          exact h.1.symm
      · simp [hn, hlt] at h
        exact h.1.symm
  · simp [hn] at h
    exact h.1.symm

/-- C10: across one `learn_neighbor_vector` call, a destination routed both
before and after never sees its stored cost rise: the call can lower a cost,
join an equal-cost hop, or delete the entry, and nothing else. -/
theorem learn_cost_nonincreasing (nbr : Addr) (w : Int) (vec : List (Addr × Int))
    (rt : RT) (dst : Addr) (c c' : Int) (h h' : Finset Addr)
    (hbefore : rt dst = some (c, h))
    (hafter : learn_neighbor_vector nbr w vec rt dst = some (c', h')) : c' ≤ c := by
  obtain ⟨c₀, h₀, he, hle⟩ := learnRelax_cost_mono nbr w vec rt dst c h hbefore
  have hw : learn_neighbor_vector nbr w vec rt dst
      = withdrawAt nbr w (some (c₀, h₀)) (lookupV vec dst) := by
    unfold learn_neighbor_vector learnWithdraw
    rw [he]
  rw [hw] at hafter
  rw [withdrawAt_cost nbr w c₀ c' h₀ h' (lookupV vec dst) hafter]
  exact hle

theorem learn_cost_nonincreasing_witness : (4 : Int) ≤ 5 :=
  learn_cost_nonincreasing "N" 3 [("D", 1)] sampleRT "D" 5 4 {"N"} {"N"}
    (by decide) (by decide)

theorem withdrawAt_none_vec (nbr : Addr) (w : Int) (v : Option Route) :
    withdrawAt nbr w v none = v := by
  unfold withdrawAt
  cases v with
  | none => rfl
  | some e =>
    obtain ⟨c, h⟩ := e
    by_cases hn : nbr ∈ h <;> simp [hn]

/-- C5 counterexample: on node `S` with the route `D ↦ (5, {N})`, the update
`{D: 9}` from `N` (weight `3`) first deletes `D` (withdrawal empties the hop
set), and an identical second call re-installs `D` at cost `12`, so applying
the update twice differs from applying it once. -/
theorem learn_twice_counterexample :
    learn_neighbor_vector "N" 3 [("D", 9)]
        (learn_neighbor_vector "N" 3 [("D", 9)] sampleRT) "D"
      ≠ learn_neighbor_vector "N" 3 [("D", 9)] sampleRT "D" := by decide

theorem learn_idem_at (nbr : Addr) (w : Int) (v : Option Route) (dOpt : Option Int)
    (hkeep : withdrawAt nbr w (relaxAt nbr w v dOpt) dOpt = none → v = none) :
    withdrawAt nbr w (relaxAt nbr w (withdrawAt nbr w (relaxAt nbr w v dOpt) dOpt) dOpt) dOpt
      = withdrawAt nbr w (relaxAt nbr w v dOpt) dOpt := by
  cases dOpt with
  | none => rw [relaxAt, withdrawAt_none_vec, relaxAt, withdrawAt_none_vec]
  | some d =>
    cases v with
    | none =>
      have h1 : relaxAt nbr w none (some d) = some (w + d, {nbr}) := rfl
      have h2 : withdrawAt nbr w (some (w + d, {nbr})) (some d)
          = some (w + d, {nbr}) := by
        simp [withdrawAt, lt_irrefl]
      have h3 : relaxAt nbr w (some (w + d, {nbr})) (some d)
          = some (w + d, {nbr}) := by
        simp [relaxAt, lt_irrefl, Finset.insert_eq_self]
      rw [h1, h2, h3, h2]
    | some e =>
      obtain ⟨c, h⟩ := e
      by_cases hlt : w + d < c
      · have h1 : relaxAt nbr w (some (c, h)) (some d) = some (w + d, {nbr}) := by
          simp [relaxAt, hlt]
        have h2 : withdrawAt nbr w (some (w + d, {nbr})) (some d)
            = some (w + d, {nbr}) := by
          simp [withdrawAt, lt_irrefl]
        have h3 : relaxAt nbr w (some (w + d, {nbr})) (some d)
            = some (w + d, {nbr}) := by
          simp [relaxAt, lt_irrefl, Finset.insert_eq_self]
        rw [h1, h2, h3, h2]
      · by_cases heq : w + d = c
        · have h1 : relaxAt nbr w (some (c, h)) (some d) = some (c, insert nbr h) := by
            simp [relaxAt, hlt, heq]
          have hnc : ¬ c < w + d := by omega
          have h2 : withdrawAt nbr w (some (c, insert nbr h)) (some d)
              = some (c, insert nbr h) := by
            simp [withdrawAt, hnc]
          have h3 : relaxAt nbr w (some (c, insert nbr h)) (some d)
              = some (c, insert nbr (insert nbr h)) := by
            simp [relaxAt, hlt, heq]
          rw [h1, h2, h3, Finset.insert_idem, h2]
        · have hcl : c < w + d := by omega
          have h1 : relaxAt nbr w (some (c, h)) (some d) = some (c, h) := by
            simp [relaxAt, hlt, heq]
          by_cases hn : nbr ∈ h
          · by_cases hem : h.erase nbr = ∅
            · exfalso
              have : withdrawAt nbr w (relaxAt nbr w (some (c, h)) (some d)) (some d)
                  = none := by
                rw [h1]
                simp [withdrawAt, hn, hcl, hem]
              exact absurd (hkeep this) (by simp)
            · have h2 : withdrawAt nbr w (some (c, h)) (some d)
                  = some (c, h.erase nbr) := by
                simp [withdrawAt, hn, hcl, hem]
              have h3 : relaxAt nbr w (some (c, h.erase nbr)) (some d)
                  = some (c, h.erase nbr) := by
                simp [relaxAt, hlt, heq]
              have h4 : withdrawAt nbr w (some (c, h.erase nbr)) (some d)
                  = some (c, h.erase nbr) := by
                simp [withdrawAt, Finset.not_mem_erase]
              rw [h1, h2, h3, h4]
          · have h2 : withdrawAt nbr w (some (c, h)) (some d) = some (c, h) := by
              simp [withdrawAt, hn]
            rw [h1, h2, h1, h2]

/-- C5 amended: provided the first call deletes no destination (no hop set is
emptied by the withdrawal phase), applying the same update twice in a row
produces the same table as applying it once.  (When a deletion does occur the
second call re-installs the destination at the higher advertised cost, as the
counterexample shows.) -/
theorem learn_twice_eq_once (nbr : Addr) (w : Int) (vec : List (Addr × Int)) (rt : RT)
    (hnd : (vec.map Prod.fst).Nodup)
    (hdel : ∀ p ∈ vec, rt p.1 ≠ none → learn_neighbor_vector nbr w vec rt p.1 ≠ none) :
    learn_neighbor_vector nbr w vec (learn_neighbor_vector nbr w vec rt)
      = learn_neighbor_vector nbr w vec rt := by
  funext dst
  rw [learn_at nbr w vec (learn_neighbor_vector nbr w vec rt) dst hnd,
      learn_at nbr w vec rt dst hnd]
  exact learn_idem_at nbr w (rt dst) (lookupV vec dst) (by
    intro hnone
    by_cases hv : rt dst = none
    · exact hv
    · exfalso
      cases hL : lookupV vec dst with
      | none =>
        rw [hL, relaxAt, withdrawAt_none_vec] at hnone
        exact hv hnone
      | some d =>
        have hmem := lookupV_mem vec dst d hL
        refine hdel (dst, d) hmem hv ?_
        rw [hL] at hnone
        rw [learn_at nbr w vec rt dst hnd, hL]
        exact hnone)

theorem learn_twice_eq_once_witness :
    learn_neighbor_vector "N" 3 [("D", 9)]
        (learn_neighbor_vector "N" 3 [("D", 9)] sampleRT2)
      = learn_neighbor_vector "N" 3 [("D", 9)] sampleRT2 :=
  learn_twice_eq_once "N" 3 [("D", 9)] sampleRT2 (by decide) (by decide)

theorem hopsOk_rtSet (rt : RT) (d : Addr) (r : Route) (h : hopsOk rt) (hr : r.2 ≠ ∅) :
    hopsOk (rtSet rt d r) := by
  intro dst c hs heq
  unfold rtSet at heq
  by_cases hd : dst = d
  · rw [if_pos hd] at heq
    obtain rfl := Option.some.inj heq
    exact hr
  · rw [if_neg hd] at heq
    exact h dst c hs heq

theorem hopsOk_learnStep (nbr : Addr) (w : Int) (rt : RT) (p : Addr × Int)
    (h : hopsOk rt) : hopsOk (learnStep nbr w rt p) := by
  intro dst c hs heq
  by_cases hd : dst = p.1
  · subst hd
    rw [learnStep_at_key nbr w rt p] at heq
    unfold relaxAt at heq
    cases hp : rt p.1 with
    | none =>
      rw [hp] at heq
      simp at heq
      rw [← heq.2]
      exact Finset.singleton_ne_empty nbr
    | some cur =>
      rw [hp] at heq
      by_cases h1 : w + p.2 < cur.1
      · simp [h1] at heq
        rw [← heq.2]
        exact Finset.singleton_ne_empty nbr
      · by_cases h2 : w + p.2 = cur.1
        · simp [h1, h2] at heq
          rw [← heq.2]
          exact Finset.insert_ne_empty nbr cur.2
        · simp [h1, h2] at heq
          exact h p.1 c hs (by rw [hp, heq])
  · rw [learnStep_at_other nbr w rt p dst hd] at heq
    exact h dst c hs heq

theorem hopsOk_learnRelax (nbr : Addr) (w : Int) (vec : List (Addr × Int)) (rt : RT)
    (h : hopsOk rt) : hopsOk (learnRelax nbr w vec rt) := by
  induction vec generalizing rt with
  | nil => exact h
  | cons p l ih => exact ih (learnStep nbr w rt p) (hopsOk_learnStep nbr w rt p h)

theorem hopsOk_withdrawAt (nbr : Addr) (w : Int) (v : Option Route) (dOpt : Option Int)
    (c : Int) (hs : Finset Addr)
    (hv : ∀ c' h', v = some (c', h') → h' ≠ ∅)
    (heq : withdrawAt nbr w v dOpt = some (c, hs)) : hs ≠ ∅ := by
  unfold withdrawAt at heq
  cases v with
  | none => simp at heq
  | some e =>
    obtain ⟨c₀, h₀⟩ := e
    by_cases hn : nbr ∈ h₀
    · cases dOpt with
      | none =>
        simp [hn] at heq
        rw [← heq.2]
        exact hv c₀ h₀ rfl
      | some d =>
        by_cases hlt : c₀ < w + d
        · by_cases hem : h₀.erase nbr = ∅
          · simp [hn, hlt, hem] at heq
          · simp [hn, hlt, hem] at heq
            rw [← heq.2]
            exact hem
        · simp [hn, hlt] at heq
          rw [← heq.2]
          exact hv c₀ h₀ rfl
    · simp [hn] at heq
      rw [← heq.2]
      exact hv c₀ h₀ rfl

theorem hopsOk_learn (nbr : Addr) (w : Int) (vec : List (Addr × Int)) (rt : RT)
    (h : hopsOk rt) : hopsOk (learn_neighbor_vector nbr w vec rt) := by
  intro dst c hs heq
  exact hopsOk_withdrawAt nbr w (learnRelax nbr w vec rt dst) (lookupV vec dst) c hs
    (fun c' h' hv => hopsOk_learnRelax nbr w vec rt h dst c' h' hv) heq

theorem hopsOk_purge (broken : Addr) (rt : RT) (h : hopsOk rt) :
    hopsOk (purge_hop broken rt) := by
  intro dst c hs heq
  unfold purge_hop at heq
  cases hp : rt dst with
  | none => rw [hp] at heq; simp at heq
  | some e =>
    obtain ⟨c₀, h₀⟩ := e
    rw [hp] at heq
    by_cases hn : broken ∈ h₀
    · by_cases hem : h₀.erase broken = ∅
      · simp [hn, hem] at heq
      · simp [hn, hem] at heq
        rw [← heq.2]
        exact hem
    · simp [hn] at heq
      rw [← heq.2]
      exact h dst c₀ h₀ hp

theorem hopsOk_init (my_ip : Addr) : hopsOk (initRT my_ip) := by
  intro dst c hs heq
  unfold initRT at heq
  by_cases hd : dst = my_ip
  · simp [hd] at heq
    rw [← heq.2]
    exact Finset.singleton_ne_empty my_ip
  · simp [hd] at heq

theorem hopsOk_applyOp (op : Op) (rt : RT) (h : hopsOk rt) : hopsOk (applyOp op rt) := by
  cases op with
  | learn nbr w vec => exact hopsOk_learn nbr w vec rt h
  | purge hop => exact hopsOk_purge hop rt h
  | addDirect ip w => exact hopsOk_rtSet rt ip (w, {ip}) h (Finset.singleton_ne_empty ip)

theorem hopsOk_applyOps (ops : List Op) (rt : RT) (h : hopsOk rt) :
    hopsOk (applyOps ops rt) := by
  induction ops generalizing rt with
  | nil => exact h
  | cons op l ih => exact ih (applyOp op rt) (hopsOk_applyOp op rt h)

/-- C2: after any sequence of routing-table operations from the initial table
(`learn_neighbor_vector`, `purge_hop` as run by operator `del` or link
expiry, `add_direct` as run by operator `add`), every stored route has a
non-empty hop set: an operation that empties a hop set removes that
destination in the same step. -/
theorem applyOps_hopset_nonempty (my_ip : Addr) (ops : List Op) (dst : Addr)
    (c : Int) (h : Finset Addr)
    (heq : applyOps ops (initRT my_ip) dst = some (c, h)) : h ≠ ∅ :=
  hopsOk_applyOps ops (initRT my_ip) (hopsOk_init my_ip) dst c h heq

theorem applyOps_hopset_nonempty_witness : ({"B"} : Finset Addr) ≠ ∅ :=
  applyOps_hopset_nonempty "A" [Op.addDirect "B" 2] "B" 2 {"B"} (by decide)

/-- C3 counterexample: the operator may run `add <self> 1`, and
`add_direct(self, 1)` then overwrites the self route with cost `1`, so a
route to the node's own address no longer has cost `0`. -/
theorem cost_zero_iff_self_counterexample :
    ¬ (∀ dst c h, applyOps [Op.addDirect "A" 1] (initRT "A") dst = some (c, h) →
        0 ≤ c ∧ (c = 0 ↔ dst = "A")) := by
  intro hall
  have h1 := (hall "A" 1 {"A"} (by decide)).2
  exact absurd (h1.mpr rfl) (by decide)

theorem costOk_learnStep (my_ip nbr : Addr) (w : Int) (rt : RT) (p : Addr × Int)
    (_hnbr : nbr ≠ my_ip) (hw : 1 ≤ w) (hd : 0 ≤ p.2) (h : costOk my_ip rt) :
    costOk my_ip (learnStep nbr w rt p) := by
  obtain ⟨hall, hself⟩ := h
  have htot : 1 ≤ w + p.2 := by omega
  constructor
  · intro dst c hs heq
    by_cases hdp : dst = p.1
    · subst hdp
      rw [learnStep_at_key nbr w rt p] at heq
      unfold relaxAt at heq
      cases hp : rt p.1 with
      | none =>
        rw [hp] at heq
        simp at heq
        obtain ⟨hc, hhs⟩ := heq
        have hne : p.1 ≠ my_ip := by
          intro hcon
          rw [hcon, hself] at hp
          exact Option.noConfusion hp
        exact ⟨by omega, iff_of_false (by omega) hne⟩
      | some cur =>
        rw [hp] at heq
        have hcur := hall p.1 cur.1 cur.2 (by rw [hp])
        by_cases h1 : w + p.2 < cur.1
        · simp [h1] at heq
          obtain ⟨hc, hhs⟩ := heq
          have hne : p.1 ≠ my_ip := by
            intro hcon
            rw [hcon, hself] at hp
            have hc0 : cur.1 = 0 := by rw [← Option.some.inj hp]
            omega
          exact ⟨by omega, iff_of_false (by omega) hne⟩
        · by_cases h2 : w + p.2 = cur.1
          · simp [h1, h2] at heq
            obtain ⟨hc, hhs⟩ := heq
            exact ⟨by omega, by rw [← hc]; exact hcur.2⟩
          · simp [h1, h2] at heq
            exact hall p.1 c hs (by rw [hp, heq])
    · rw [learnStep_at_other nbr w rt p dst hdp] at heq
      exact hall dst c hs heq
  · by_cases hdp : my_ip = p.1
    · have hk := learnStep_at_key nbr w rt p
      rw [← hdp] at hk
      rw [hk, hself]
      unfold relaxAt
      have hlt : ¬ w + p.2 < (0 : Int) := by omega
      have he0 : ¬ w + p.2 = (0 : Int) := by omega
      simp [hlt, he0]
    · rw [learnStep_at_other nbr w rt p my_ip hdp]
      exact hself

theorem costOk_learnRelax (my_ip nbr : Addr) (w : Int) (vec : List (Addr × Int))
    (hnbr : nbr ≠ my_ip) (hw : 1 ≤ w) :
    ∀ rt : RT, (∀ p ∈ vec, 0 ≤ p.2) → costOk my_ip rt →
      costOk my_ip (learnRelax nbr w vec rt) := by
  induction vec with
  | nil => exact fun rt _ h => h
  | cons p l ih =>
    intro rt hvec h
    exact ih (learnStep nbr w rt p)
      (fun q hq => hvec q (List.mem_cons_of_mem p hq))
      (costOk_learnStep my_ip nbr w rt p hnbr hw (hvec p (List.mem_cons_self p l)) h)

theorem costOk_learnWithdraw (my_ip nbr : Addr) (w : Int) (vec : List (Addr × Int))
    (rt : RT) (hnbr : nbr ≠ my_ip) (h : costOk my_ip rt) :
    costOk my_ip (learnWithdraw nbr w vec rt) := by
  obtain ⟨hall, hself⟩ := h
  constructor
  · intro dst c hs heq
    unfold learnWithdraw withdrawAt at heq
    cases hp : rt dst with
    | none => rw [hp] at heq; simp at heq
    | some e =>
      obtain ⟨c₀, h₀⟩ := e
      rw [hp] at heq
      have hc := hall dst c₀ h₀ hp
      by_cases hn : nbr ∈ h₀
      · cases hL : lookupV vec dst with
        | none =>
          rw [hL] at heq
          simp [hn] at heq
          exact heq.1 ▸ hc
        | some d =>
          rw [hL] at heq
          by_cases hlt : c₀ < w + d
          · by_cases hem : h₀.erase nbr = ∅
            · simp [hn, hlt, hem] at heq
            · simp [hn, hlt, hem] at heq
              exact heq.1 ▸ hc
          · simp [hn, hlt] at heq
            exact heq.1 ▸ hc
      · simp [hn] at heq
        exact heq.1 ▸ hc
  · unfold learnWithdraw withdrawAt
    rw [hself]
    have hn : nbr ∉ ({my_ip} : Finset Addr) := by simp [hnbr]
    simp [hn]

theorem costOk_purge (my_ip broken : Addr) (rt : RT) (hb : broken ≠ my_ip)
    (h : costOk my_ip rt) : costOk my_ip (purge_hop broken rt) := by
  obtain ⟨hall, hself⟩ := h
  constructor
  · intro dst c hs heq
    unfold purge_hop at heq
    cases hp : rt dst with
    | none => rw [hp] at heq; simp at heq
    | some e =>
      obtain ⟨c₀, h₀⟩ := e
      rw [hp] at heq
      have hc := hall dst c₀ h₀ hp
      by_cases hn : broken ∈ h₀
      · by_cases hem : h₀.erase broken = ∅
        · simp [hn, hem] at heq
        · simp [hn, hem] at heq
          exact heq.1 ▸ hc
      · simp [hn] at heq
        exact heq.1 ▸ hc
  · unfold purge_hop
    rw [hself]
    have hn : broken ∉ ({my_ip} : Finset Addr) := by simp [hb]
    simp [hn]

theorem costOk_add_direct (my_ip ip : Addr) (w : Int) (rt : RT) (hip : ip ≠ my_ip)
    (hw : 1 ≤ w) (h : costOk my_ip rt) : costOk my_ip (add_direct ip w rt) := by
  obtain ⟨hall, hself⟩ := h
  constructor
  · intro dst c hs heq
    unfold add_direct rtSet at heq
    by_cases hd : dst = ip
    · rw [if_pos hd] at heq
      simp at heq
      obtain ⟨hc, hhs⟩ := heq
      exact ⟨by omega, iff_of_false (by omega) (by rw [hd]; exact hip)⟩
    · rw [if_neg hd] at heq
      exact hall dst c hs heq
  · have hne : my_ip ≠ ip := fun hh => hip hh.symm
    unfold add_direct rtSet
    simp [hne, hself]

theorem costOk_init (my_ip : Addr) : costOk my_ip (initRT my_ip) := by
  constructor
  · intro dst c hs heq
    unfold initRT at heq
    by_cases hd : dst = my_ip
    · rw [if_pos hd] at heq
      simp at heq
      exact ⟨le_of_eq heq.1, iff_of_true heq.1.symm hd⟩
    · rw [if_neg hd] at heq
      exact absurd heq (by simp)
  · unfold initRT
    simp

theorem costOk_applyOp (my_ip : Addr) (op : Op) (rt : RT) (hwf : OpWf my_ip op)
    (h : costOk my_ip rt) : costOk my_ip (applyOp op rt) := by
  cases op with
  | learn nbr w vec =>
    have hwf' : nbr ≠ my_ip ∧ 1 ≤ w ∧ ∀ p ∈ vec, 0 ≤ p.2 := hwf
    obtain ⟨hnbr, hw, hvec⟩ := hwf'
    exact costOk_learnWithdraw my_ip nbr w vec _ hnbr
      (costOk_learnRelax my_ip nbr w vec hnbr hw rt hvec h)
  | purge hop => exact costOk_purge my_ip hop rt hwf h
  | addDirect ip w =>
    have hwf' : ip ≠ my_ip ∧ 1 ≤ w := hwf
    exact costOk_add_direct my_ip ip w rt hwf'.1 hwf'.2 h

theorem costOk_applyOps (my_ip : Addr) (ops : List Op) :
    ∀ rt : RT, (∀ op ∈ ops, OpWf my_ip op) → costOk my_ip rt →
      costOk my_ip (applyOps ops rt) := by
  induction ops with
  | nil => exact fun rt _ h => h
  | cons op l ih =>
    intro rt hwf h
    exact ih (applyOp op rt) (fun q hq => hwf q (List.mem_cons_of_mem op hq))
      (costOk_applyOp my_ip op rt (hwf op (List.mem_cons_self op l)) h)

/-- C3 amended: for every sequence of operations from the initial table in
which weights are positive, advertised distances non-negative, and no
operation names the node's own address (no `add <self> ...`, no update from
`self`, no purge of `self`), every stored cost is non-negative and is zero
exactly for the route to the node's own address. -/
theorem applyOps_cost_invariant (my_ip : Addr) (ops : List Op)
    (hwf : ∀ op ∈ ops, OpWf my_ip op) (dst : Addr) (c : Int) (h : Finset Addr)
    (heq : applyOps ops (initRT my_ip) dst = some (c, h)) :
    0 ≤ c ∧ (c = 0 ↔ dst = my_ip) :=
  (costOk_applyOps my_ip ops (initRT my_ip) hwf (costOk_init my_ip)).1 dst c h heq

theorem applyOps_cost_invariant_witness :
    (0 : Int) ≤ 3 ∧ ((3 : Int) = 0 ↔ "C" = "A") :=
  applyOps_cost_invariant "A" [Op.addDirect "B" 2, Op.learn "B" 2 [("C", 1)]]
    (by decide) "C" 3 {"B"} (by decide)

/-- C9 counterexample: the guarded `add` arm admits any three-token `add`
line, so `add 10.0.0.1 x` reaches `int("x")`, which raises an uncaught
`ValueError`: no usage hint is printed (and the CLI thread dies), where the
claim promises a printed hint and a no-op. -/
theorem execCmd_badint_counterexample :
    execCmd pickConst "S" 0 emptyLinksState "add 10.0.0.1 x"
      = .error .valueError := rfl

/-- C9 amended: a nonempty, non-blank operator line whose first token is none
of `add`, `del`, `trace`, `quit`, `show`, or that is an `add`/`del`/`trace`
with the wrong argument count, prints the one-line usage hint and changes
nothing.  Carved out, per the counterexample and source: a three-token `add`
with a non-integer weight raises `ValueError` (still no state change), an
empty line is a silent no-op, and `show` and any `quit`-prefixed line are
handled commands. -/
theorem execCmd_malformed_usage (pick : Finset Addr → Addr) (my_ip : Addr) (now : Nat)
    (st : NodeState) (cmd : String) (t : String) (rest : List String)
    (htok : tokenize cmd = t :: rest) (hne : cmd ≠ "")
    (hmal : (t ≠ "add" ∧ t ≠ "del" ∧ t ≠ "trace" ∧ t ≠ "quit" ∧ t ≠ "show")
          ∨ (t = "add" ∧ rest.length ≠ 2)
          ∨ (t = "del" ∧ rest.length ≠ 1)
          ∨ (t = "trace" ∧ rest.length ≠ 1)) :
    execCmd pick my_ip now st cmd = .ok ⟨st, [.line usageHint], [], false⟩ := by
  unfold execCmd
  rw [if_neg hne, htok]
  rcases hmal with ⟨h1, h2, h3, h4, h5⟩ | ⟨ht, hlen⟩ | ⟨ht, hlen⟩ | ⟨ht, hlen⟩
  · simp [execParts, h1, h2, h3, h4, h5]
  · subst ht
    simp [execParts, hlen]
  · subst ht
    simp [execParts, hlen]
  · subst ht
    simp [execParts, hlen]

theorem execCmd_malformed_usage_witness :
    execCmd pickConst "S" 0 emptyLinksState "foo"
      = .ok ⟨emptyLinksState, [.line usageHint], [], false⟩ :=
  execCmd_malformed_usage pickConst "S" 0 emptyLinksState "foo" "foo" []
    (by decide) (by decide) (Or.inl (by decide))
